import Mathlib

/-!
Verification of the MLB pitch-speed extraction and aggregation pipeline.

This file gives a shallow embedding of the core routines of
`Qwen_python_20251012_wc9h50gs0.py`:
  * `extract_max_and_avg_fastball_speeds_from_file`  →  `MLB.extractGame` / `MLB.extractFromFile`
  * `aggregate_max_and_avg_speeds_from_directory`    →  `MLB.aggregateResults`
  * `save_combined_speeds_to_json`                   →  `MLB.saveCombined`

Python dictionaries are modelled as insertion-ordered association lists
(`List (κ × α)`) with unique keys maintained by the operations; `dict.get`
is first-match lookup, assignment `d[k] = v` updates in place when the key
exists and appends otherwise, and a `defaultdict` access inserts the default
value at the end before the surrounding statement reads it.  Speeds (Python
floats read out of JSON) are modelled as rationals.  Missing JSON keys are
`Option.none`.
-/

namespace MLB

/-- `d.get(k)`: first-match lookup in an insertion-ordered dictionary. -/
def dictGet {κ α : Type} [DecidableEq κ] (d : List (κ × α)) (k : κ) : Option α :=
  (d.find? (fun p => decide (p.1 = k))).map (fun p => p.2)

/-- `d[k] = v`: update the existing entry in place, else append at the end. -/
def dictSet {κ α : Type} [DecidableEq κ] (d : List (κ × α)) (k : κ) (v : α) :
    List (κ × α) :=
  match d with
  | [] => [(k, v)]
  | (k', v') :: rest => if k' = k then (k, v) :: rest else (k', v') :: dictSet rest k v

/-- `if speed > max_speeds[name]: max_speeds[name] = speed` on a
`defaultdict(float)`: the subscript access first inserts `0.0` (at the end)
when the key is absent, then the comparison and conditional assignment run. -/
def ddMaxUpdate (d : List (String × ℚ)) (k : String) (s : ℚ) : List (String × ℚ) :=
  let d0 := if (dictGet d k).isSome then d else d ++ [(k, 0)]
  let cur := (dictGet d0 k).getD 0
  if cur < s then dictSet d0 k s else d0

/-- `d[name].append(x)` on a `defaultdict(list)`: the access inserts `[]`
(at the end) when the key is absent, then the element is appended. -/
def ddAppend {α : Type} (d : List (String × List α)) (k : String) (x : α) :
    List (String × List α) :=
  match dictGet d k with
  | some l => dictSet d k (l ++ [x])
  | none => d ++ [(k, [x])]

/-- `FASTBALL_CODES = {"FF", "FT", "SI", "FC"}`. -/
def FASTBALL_CODES : List String := ["FF", "FT", "SI", "FC"]

/-- `pitch_code in FASTBALL_CODES`; the code read by
`details['type'].get('code')` may be absent (`None in set` is false). -/
def isFastball (code : Option String) : Bool :=
  match code with
  | some c => FASTBALL_CODES.contains c
  | none => false

/-- The `pitchData` object of a play event; `startSpeed` may be absent. -/
structure PitchData where
  startSpeed : Option ℚ
deriving DecidableEq, Repr

/-- The `details['type']` object; `code` read with `.get('code')`. -/
structure PitchType where
  code : Option String
deriving DecidableEq, Repr

/-- The `details` object of a play event; `type` may be absent. -/
structure Details where
  type : Option PitchType
deriving DecidableEq, Repr

/-- One element of `play['playEvents']`; `pitchData` and `details` are read
with `.get`, so they may be absent. -/
structure PlayEvent where
  pitchData : Option PitchData
  details : Option Details
deriving DecidableEq, Repr

/-- The `matchup.pitcher` object: optional `id` and optional `fullName`. -/
structure PitcherInfo where
  id : Option Int
  fullName : Option String
deriving DecidableEq, Repr

/-- The `matchup` object of a play. -/
structure Matchup where
  pitcher : Option PitcherInfo
deriving DecidableEq, Repr

/-- One element of the play list; `playEvents` may be missing
(`'playEvents' not in play` → the play is skipped), `matchup` is read with
`.get('matchup', {})`. -/
structure Play where
  playEvents : Option (List PlayEvent)
  matchup : Option Matchup
deriving DecidableEq, Repr

/-- The `person` object of a roster entry in `liveData.players`. -/
structure PersonInfo where
  id : Option Int
  fullName : Option String
deriving DecidableEq, Repr

/-- One value of the `liveData.players` dictionary; `person` is read with
`.get('person', {})`. -/
structure PlayerDataEntry where
  person : Option PersonInfo
deriving DecidableEq, Repr

/-- The `liveData.plays` object (fallback location of the play list). -/
structure PlaysObj where
  allPlays : Option (List Play)
deriving DecidableEq, Repr

/-- The `liveData` object: play list in either of two locations, plus the
optional `players` roster dictionary. -/
structure LiveData where
  allPlays : Option (List Play)
  plays : Option PlaysObj
  players : Option (List (String × PlayerDataEntry))
deriving DecidableEq, Repr

/-- A parsed game record; `liveData` is read with `.get("liveData", {})`. -/
structure GameRecord where
  liveData : Option LiveData
deriving DecidableEq, Repr

/-- `game_data.get("liveData", {}).get("allPlays")`, falling back to
`game_data.get("liveData", {}).get("plays", {}).get("allPlays")` when the
first location yields nothing. -/
def allPlaysOf (g : GameRecord) : Option (List Play) :=
  match g.liveData with
  | none => none
  | some ld =>
    match ld.allPlays with
    | some ps => some ps
    | none => ld.plays.bind PlaysObj.allPlays

/-- `game_data.get("liveData", {}).get("players", {})`. -/
def playersOf (g : GameRecord) : List (String × PlayerDataEntry) :=
  (g.liveData.bind LiveData.players).getD []

/-- The roster-building loop: for each entry of `liveData.players`, read
`person.id` and `person.fullName` and record `player_names[id] = fullName`
when both are truthy (a Python `int` is truthy iff nonzero, a `str` iff
nonempty).  The `if players_data_raw:` guard is the identity on the empty
dictionary, so it is not modelled separately. -/
def buildPlayerNames (playersRaw : List (String × PlayerDataEntry)) :
    List (Int × String) :=
  playersRaw.foldl
    (fun acc p =>
      let person := p.2.person.getD ⟨none, none⟩
      match person.id, person.fullName with
      | some i, some nm => if i ≠ 0 ∧ nm ≠ "" then dictSet acc i nm else acc
      | _, _ => acc)
    []

/-- `str(pitcher_id)` for the placeholder name; `str(None)` is `"None"`. -/
def pitcherIdStr : Option Int → String
  | none => "None"
  | some i => toString i

/-- `play.get('matchup', {}).get('pitcher', {})` collapsed to a single
`PitcherInfo` (absent levels behave as the empty object). -/
def pitcherInfoOf (play : Play) : PitcherInfo :=
  (play.matchup.bind Matchup.pitcher).getD ⟨none, none⟩

/-- Pitcher-name resolution inside the event loop:
`pitcher_name_from_matchup = pitcher_info.get('fullName', 'Unknown_Pitcher_Id_' + str(pitcher_id))`
and then
`final_pitcher_name = player_names[pitcher_id] if (pitcher_id and pitcher_id in player_names) else pitcher_name_from_matchup`. -/
def resolvePitcherName (playerNames : List (Int × String)) (pinfo : PitcherInfo) :
    String :=
  let fromMatchup := pinfo.fullName.getD ("Unknown_Pitcher_Id_" ++ pitcherIdStr pinfo.id)
  match pinfo.id with
  | some i =>
    if i ≠ 0 then
      match dictGet playerNames i with
      | some nm => nm
      | none => fromMatchup
    else fromMatchup
  | none => fromMatchup

/-- The mutable state of the extraction loop: `max_speeds = defaultdict(float)`
and `fastball_speeds_dict = defaultdict(list)`. -/
structure ExtractState where
  maxSpeeds : List (String × ℚ)
  fastballs : List (String × List ℚ)
deriving DecidableEq, Repr

/-- The body of the inner `for event in play['playEvents']` loop: the event
qualifies when `pitchData` exists with a `startSpeed` and `details` exists
with a `type` (the Python truthiness tests on the nonempty inner objects are
subsumed by key presence); then the max fold runs on every qualifying event
and the speed is appended to the fastball list when the code is a fastball
code. -/
def processEvent (playerNames : List (Int × String)) (pinfo : PitcherInfo)
    (st : ExtractState) (ev : PlayEvent) : ExtractState :=
  match ev.pitchData, ev.details with
  | some pd, some dt =>
    match pd.startSpeed, dt.type with
    | some speed, some ptype =>
      let name := resolvePitcherName playerNames pinfo
      { maxSpeeds := ddMaxUpdate st.maxSpeeds name speed
        fastballs :=
          if isFastball ptype.code then ddAppend st.fastballs name speed
          else st.fastballs }
    | _, _ => st
  | _, _ => st

/-- The body of the outer `for play in all_plays_data` loop: a play without a
`playEvents` key is skipped. -/
def processPlay (playerNames : List (Int × String)) (st : ExtractState)
    (play : Play) : ExtractState :=
  match play.playEvents with
  | none => st
  | some evs => evs.foldl (processEvent playerNames (pitcherInfoOf play)) st

/-- The final averaging step: for every pitcher whose speed list is nonempty,
`avg = sum(speeds) / len(speeds)` (dictionary iteration order preserved). -/
def computeAvgs (fb : List (String × List ℚ)) : List (String × ℚ) :=
  fb.filterMap
    (fun p => if p.2.isEmpty then none else some (p.1, p.2.sum / (p.2.length : ℚ)))

/-- `extract_max_and_avg_fastball_speeds_from_file` on a successfully parsed
game record: locate the play list (returning two empty dictionaries when it is
absent), build the roster, run the extraction loop, and average the fastball
lists. -/
def extractGame (g : GameRecord) : List (String × ℚ) × List (String × ℚ) :=
  match allPlaysOf g with
  | none => ([], [])
  | some plays =>
    let names := buildPlayerNames (playersOf g)
    let st := plays.foldl (processPlay names) ⟨[], []⟩
    (st.maxSpeeds, computeAvgs st.fastballs)

/-- `extract_max_and_avg_fastball_speeds_from_file` including the parse step:
`none` models a `json.JSONDecodeError` on the file contents, on which the
function returns `{}, {}`. -/
def extractFromFile (parsed : Option GameRecord) :
    List (String × ℚ) × List (String × ℚ) :=
  match parsed with
  | none => ([], [])
  | some g => extractGame g

/-- The mutable state of the aggregation loop:
`all_max_speeds = defaultdict(float)` and
`all_avg_fastball_speeds = defaultdict(list)`. -/
structure AggState where
  allMax : List (String × ℚ)
  allAvgLists : List (String × List ℚ)
deriving DecidableEq, Repr

/-- One iteration of `aggregate_max_and_avg_speeds_from_directory`: fold one
game's `(game_max_speeds, game_avg_fastball_speeds)` into the running state. -/
def aggStep (st : AggState) (game : List (String × ℚ) × List (String × ℚ)) :
    AggState :=
  { allMax := game.1.foldl (fun acc p => ddMaxUpdate acc p.1 p.2) st.allMax
    allAvgLists := game.2.foldl (fun acc p => ddAppend acc p.1 p.2) st.allAvgLists }

/-- `aggregate_max_and_avg_speeds_from_directory`, abstracted over the list of
per-file extraction results: fold every game into the running state, then
average each pitcher's list of per-game averages. -/
def aggregateResults (games : List (List (String × ℚ) × List (String × ℚ))) :
    List (String × ℚ) × List (String × ℚ) :=
  let st := games.foldl aggStep ⟨[], []⟩
  (st.allMax, computeAvgs st.allAvgLists)

/-- One value of the combined output dictionary. -/
structure CombinedRecord where
  max_speed : ℚ
  avg_fastball_speed : ℚ
deriving DecidableEq, Repr

/-- `save_combined_speeds_to_json` up to serialization: form the union of the
two key sets (Python set iteration order is unspecified; the union is taken
here in first-occurrence order, a representative of that set), build the
combined record for every pitcher with `.get(name, 0.0)` defaults, and sort
by `max_speed` descending with a stable sort. -/
def saveCombined (maxD avgD : List (String × ℚ)) : List (String × CombinedRecord) :=
  let allPitchers := (maxD.map Prod.fst ++ avgD.map Prod.fst).dedup
  let combined : List (String × CombinedRecord) :=
    allPitchers.map (fun p => (p, ⟨(dictGet maxD p).getD 0, (dictGet avgD p).getD 0⟩))
  combined.mergeSort (fun a b => decide (b.2.max_speed ≤ a.2.max_speed))

/-! ### Specification-side views used by the theorems -/

/-- A dictionary invariant: all keys are distinct (Python dictionaries
cannot hold a key twice). -/
def DKeys {κ α : Type} (d : List (κ × α)) : Prop := (d.map Prod.fst).Nodup

instance {κ α : Type} [DecidableEq κ] (d : List (κ × α)) : Decidable (DKeys d) :=
  inferInstanceAs (Decidable (d.map Prod.fst).Nodup)

/-- The values attached to key `k` among the entries of `m`, in order. -/
def entriesOf {α : Type} (m : List (String × α)) (k : String) : List α :=
  m.filterMap (fun p => if p.1 = k then some p.2 else none)

/-- Result of growing an optional list by some further elements: absent and
nothing added stays absent, otherwise the concatenation. -/
def optCat {α : Type} (o : Option (List α)) (es : List α) : Option (List α) :=
  match o, es with
  | none, [] => none
  | o, es => some (o.getD [] ++ es)

/-- Result of folding the running-max update over further observations:
absent and nothing observed stays absent, otherwise the max fold (an absent
entry starts from the `defaultdict(float)` default `0`). -/
def optFoldMax (o : Option ℚ) (es : List ℚ) : Option ℚ :=
  match o, es with
  | none, [] => none
  | o, es => some (es.foldl max (o.getD 0))

/-- The flattened stream of qualifying pitch events of a game, as
`(resolved pitcher name, speed, pitch-type code)` triples, in loop order. -/
def gameEvents (g : GameRecord) : List (String × ℚ × Option String) :=
  match allPlaysOf g with
  | none => []
  | some plays =>
    plays.flatMap (fun play =>
      match play.playEvents with
      | none => []
      | some evs =>
        evs.filterMap (fun ev =>
          match ev.pitchData, ev.details with
          | some pd, some dt =>
            match pd.startSpeed, dt.type with
            | some s, some t =>
              some (resolvePitcherName (buildPlayerNames (playersOf g))
                      (pitcherInfoOf play), s, t.code)
            | _, _ => none
          | _, _ => none))

/-- The speeds of the fastball-coded qualifying events a game attributes to
pitcher `k`, in loop order. -/
def fbSpeedsOf (g : GameRecord) (k : String) : List ℚ :=
  (gameEvents g).filterMap
    (fun e => if e.1 = k ∧ isFastball e.2.2 then some e.2.1 else none)

/-- The fastball-speed contribution of one event to pitcher `k`: its speed
when the event qualifies, resolves to `k`, and carries a fastball code. -/
def evFbSpeed (playerNames : List (Int × String)) (pinfo : PitcherInfo)
    (k : String) (ev : PlayEvent) : Option ℚ :=
  match ev.pitchData, ev.details with
  | some pd, some dt =>
    match pd.startSpeed, dt.type with
    | some s, some t =>
      if resolvePitcherName playerNames pinfo = k ∧ isFastball t.code then some s
      else none
    | _, _ => none
  | _, _ => none

/-- The fastball speeds a play contributes to pitcher `k`, in loop order. -/
def playFbSpeeds (playerNames : List (Int × String)) (k : String) (play : Play) :
    List ℚ :=
  match play.playEvents with
  | none => []
  | some evs => evs.filterMap (evFbSpeed playerNames (pitcherInfoOf play) k)

/-- Invariant of the extraction-loop state: both dictionaries have distinct
keys, recorded maxima are non-negative, fastball lists are nonempty, and
every recorded fastball speed is bounded by the same pitcher's recorded
maximum. -/
def ExtractInv (st : ExtractState) : Prop :=
  DKeys st.maxSpeeds ∧ DKeys st.fastballs ∧
  (∀ p ∈ st.maxSpeeds, 0 ≤ p.2) ∧
  (∀ p ∈ st.fastballs, p.2 ≠ []) ∧
  (∀ k l, dictGet st.fastballs k = some l →
    ∃ m, dictGet st.maxSpeeds k = some m ∧ ∀ s ∈ l, s ≤ m)

/-! ### Concrete inputs for the end-to-end checks -/

/-- A qualifying pitch event with the given speed and pitch-type code. -/
def mkEvent (s : ℚ) (c : String) : PlayEvent :=
  ⟨some ⟨some s⟩, some ⟨some ⟨some c⟩⟩⟩

/-- A play by the matchup pitcher named `nm` consisting of the given events. -/
def mkPlay (nm : String) (evs : List PlayEvent) : Play :=
  ⟨some evs, some ⟨some ⟨none, some nm⟩⟩⟩

/-- A game record with the given plays under `liveData.allPlays` and no
roster. -/
def mkGame (plays : List Play) : GameRecord :=
  ⟨some ⟨some plays, none, none⟩⟩

/-- Synthetic game A: pitcher `"X"` throws speeds 95 and 97, codes FF, FF. -/
def gameA : GameRecord := mkGame [mkPlay "X" [mkEvent 95 "FF", mkEvent 97 "FF"]]

/-- Synthetic game B: pitcher `"X"` throws speeds 93 and 99, codes FF, CU. -/
def gameB : GameRecord := mkGame [mkPlay "X" [mkEvent 93 "FF", mkEvent 99 "CU"]]

/-- A game in which pitcher `"P"` throws three fastballs averaging 90. -/
def gameC : GameRecord :=
  mkGame [mkPlay "P" [mkEvent 88 "FF", mkEvent 90 "FF", mkEvent 92 "FF"]]

/-- A game in which pitcher `"P"` throws a single fastball at 92. -/
def gameD : GameRecord := mkGame [mkPlay "P" [mkEvent 92 "FF"]]

/-- A game in which pitcher `"Q"` throws only a curveball (no fastballs). -/
def gameE : GameRecord := mkGame [mkPlay "Q" [mkEvent 85 "CU"]]

/-- A game record whose `liveData.plays` object is present but carries no
`allPlays` key (and no top-level `allPlays` either). -/
def gameNoPlays : GameRecord := ⟨some ⟨none, some ⟨none⟩, none⟩⟩

/-- A roster dictionary under which player 12 is named `"Roster Name"`. -/
def rosterRaw : List (String × PlayerDataEntry) :=
  [("ID12", ⟨some ⟨some 12, some "Roster Name"⟩⟩)]

/-- Matchup pitcher info carrying id 12 but a different display name. -/
def pinfoDisplay : PitcherInfo := ⟨some 12, some "Display Name"⟩

/-! ### Dictionary lemmas -/

section DictLemmas

variable {κ α : Type} [DecidableEq κ]

theorem dictGet_nil (k : κ) : dictGet ([] : List (κ × α)) k = none := rfl

theorem dictGet_cons (k' : κ) (v : α) (d : List (κ × α)) (k : κ) :
    dictGet ((k', v) :: d) k = if k' = k then some v else dictGet d k := by
  by_cases h : k' = k <;> simp [dictGet, List.find?_cons, h]

theorem dictGet_append_of_some {d : List (κ × α)} {k : κ} {v : α}
    (e : List (κ × α)) (h : dictGet d k = some v) : dictGet (d ++ e) k = some v := by
  induction d with
  | nil => simp [dictGet_nil] at h
  | cons p d ih =>
    obtain ⟨k', v'⟩ := p
    rw [dictGet_cons] at h
    rw [List.cons_append, dictGet_cons]
    by_cases hk : k' = k
    · simpa [hk] using h
    · simp only [hk, if_false] at h ⊢
      exact ih h

theorem dictGet_append_of_none {d : List (κ × α)} {k : κ}
    (e : List (κ × α)) (h : dictGet d k = none) : dictGet (d ++ e) k = dictGet e k := by
  induction d with
  | nil => simp
  | cons p d ih =>
    obtain ⟨k', v'⟩ := p
    rw [dictGet_cons] at h
    rw [List.cons_append, dictGet_cons]
    by_cases hk : k' = k
    · simp [hk] at h
    · simp only [hk, if_false] at h ⊢
      exact ih h

theorem dictGet_isSome_iff (d : List (κ × α)) (k : κ) :
    (dictGet d k).isSome ↔ k ∈ d.map Prod.fst := by
  induction d with
  | nil => simp [dictGet_nil]
  | cons p d ih =>
    obtain ⟨k', v'⟩ := p
    rw [dictGet_cons]
    by_cases hk : k' = k
    · simp [hk]
    · have hk' : ¬ k = k' := fun h => hk h.symm
      simp [hk, hk', ih]

theorem dictGet_eq_none_iff (d : List (κ × α)) (k : κ) :
    dictGet d k = none ↔ k ∉ d.map Prod.fst := by
  rw [← dictGet_isSome_iff, Option.isSome_iff_ne_none]
  tauto

theorem mem_of_dictGet_eq_some {d : List (κ × α)} {k : κ} {v : α}
    (h : dictGet d k = some v) : (k, v) ∈ d := by
  unfold dictGet at h
  cases hf : d.find? (fun p => decide (p.1 = k)) with
  | none => rw [hf] at h; simp at h
  | some p =>
    rw [hf] at h
    have hv : p.2 = v := by simpa using h
    have hk : p.1 = k := by simpa using List.find?_some hf
    have hmem := List.mem_of_find?_eq_some hf
    obtain ⟨a, b⟩ := p
    simp only at hk hv
    rw [hk, hv] at hmem
    exact hmem

theorem dictGet_eq_some_of_mem {d : List (κ × α)} {k : κ} {v : α}
    (hd : DKeys d) (hm : (k, v) ∈ d) : dictGet d k = some v := by
  induction d with
  | nil => simp at hm
  | cons p d ih =>
    obtain ⟨k', v'⟩ := p
    rw [dictGet_cons]
    rcases List.mem_cons.mp hm with heq | htail
    · obtain ⟨h1, h2⟩ := Prod.mk.injEq .. ▸ heq
      simp [← h1, h2]
    · have hk : k' ≠ k := by
        intro hkk
        have : k ∈ d.map Prod.fst := by
          exact List.mem_map.mpr ⟨(k, v), htail, rfl⟩
        have hnd : k' ∉ d.map Prod.fst := by
          have := hd
          unfold DKeys at this
          simpa using (List.nodup_cons.mp this).1
        exact hnd (hkk ▸ this)
      have hd' : DKeys d := by
        unfold DKeys at hd ⊢
        exact (List.nodup_cons.mp hd).2
      simp [hk, ih hd' htail]

theorem dictGet_dictSet_self (d : List (κ × α)) (k : κ) (v : α) :
    dictGet (dictSet d k v) k = some v := by
  induction d with
  | nil => simp [dictSet, dictGet_cons]
  | cons p d ih =>
    obtain ⟨k', v'⟩ := p
    by_cases hk : k' = k <;> simp [dictSet, hk, dictGet_cons, ih]

theorem dictGet_dictSet_ne (d : List (κ × α)) {k k' : κ} (v : α) (h : k ≠ k') :
    dictGet (dictSet d k v) k' = dictGet d k' := by
  induction d with
  | nil => simp [dictSet, dictGet_cons, h]
  | cons p d ih =>
    obtain ⟨k'', v''⟩ := p
    by_cases hk : k'' = k
    · subst hk
      simp [dictSet, dictGet_cons, h]
    · simp [dictSet, hk, dictGet_cons, ih]

theorem keys_dictSet (d : List (κ × α)) (k : κ) (v : α) :
    (dictSet d k v).map Prod.fst =
      if k ∈ d.map Prod.fst then d.map Prod.fst else d.map Prod.fst ++ [k] := by
  induction d with
  | nil => simp [dictSet]
  | cons p d ih =>
    obtain ⟨k', v'⟩ := p
    by_cases hk : k' = k
    · simp [dictSet, hk]
    · have hne : ¬ k = k' := fun hkk => hk hkk.symm
      by_cases hmem : k ∈ d.map Prod.fst <;>
        simp [dictSet, hk, ih, hmem, hne]

theorem mem_dictSet {d : List (κ × α)} {k : κ} {v : α} {p : κ × α}
    (h : p ∈ dictSet d k v) : p = (k, v) ∨ p ∈ d := by
  induction d with
  | nil => simpa [dictSet] using h
  | cons q d ih =>
    obtain ⟨k', v'⟩ := q
    by_cases hk : k' = k
    · rcases List.mem_cons.mp (by simpa [dictSet, hk] using h) with h1 | h2
      · exact Or.inl h1
      · exact Or.inr (List.mem_cons.mpr (Or.inr h2))
    · rcases List.mem_cons.mp (by simpa [dictSet, hk] using h) with h1 | h2
      · exact Or.inr (List.mem_cons.mpr (Or.inl h1))
      · rcases ih h2 with h3 | h4
        · exact Or.inl h3
        · exact Or.inr (List.mem_cons.mpr (Or.inr h4))

theorem dkeys_dictSet {d : List (κ × α)} (k : κ) (v : α) (hd : DKeys d) :
    DKeys (dictSet d k v) := by
  unfold DKeys at hd ⊢
  rw [keys_dictSet]
  by_cases hmem : k ∈ d.map Prod.fst
  · simpa [hmem] using hd
  · simp only [hmem, if_false, List.nodup_append]
    refine ⟨hd, List.nodup_singleton k, ?_⟩
    intro a ha hb
    rw [List.mem_singleton] at hb
    subst hb
    exact hmem ha

end DictLemmas

theorem dkeys_nil {κ α : Type} : DKeys ([] : List (κ × α)) := by
  unfold DKeys
  simp

/-! ### Lemmas about the defaultdict update operations -/

theorem dictGet_ddMaxUpdate_self (d : List (String × ℚ)) (k : String) (s : ℚ) :
    dictGet (ddMaxUpdate d k s) k = some (max ((dictGet d k).getD 0) s) := by
  unfold ddMaxUpdate
  cases h : dictGet d k with
  | none =>
    have h0 : dictGet (d ++ [(k, (0 : ℚ))]) k = some 0 := by
      rw [dictGet_append_of_none _ h, dictGet_cons]
      simp
    by_cases hs : (0 : ℚ) < s
    · simp [h, h0, hs, dictGet_dictSet_self, max_eq_right hs.le]
    · simp [h, h0, hs, max_eq_left (le_of_not_lt hs)]
  | some cur =>
    by_cases hs : cur < s
    · simp [h, hs, dictGet_dictSet_self, max_eq_right hs.le]
    · simp [h, hs, max_eq_left (le_of_not_lt hs)]

theorem dictGet_ddMaxUpdate_ne (d : List (String × ℚ)) {k k' : String} (s : ℚ)
    (h : k ≠ k') : dictGet (ddMaxUpdate d k s) k' = dictGet d k' := by
  unfold ddMaxUpdate
  cases hg : dictGet d k with
  | none =>
    have h0 : dictGet (d ++ [(k, (0 : ℚ))]) k = some 0 := by
      rw [dictGet_append_of_none _ hg, dictGet_cons]
      simp
    have h1 : dictGet (d ++ [(k, (0 : ℚ))]) k' = dictGet d k' := by
      cases hg' : dictGet d k' with
      | none =>
        rw [dictGet_append_of_none _ hg', dictGet_cons]
        simp [h, dictGet_nil]
      | some v => rw [dictGet_append_of_some _ hg']
    simp only [hg, Option.isSome_none, Bool.false_eq_true, if_false, h0]
    by_cases hs : (0 : ℚ) < s
    · simp only [Option.getD_some, hs, if_true]
      rw [dictGet_dictSet_ne _ _ h, h1]
    · simpa [hs] using h1
  | some cur =>
    simp only [hg, Option.isSome_some, if_true, Option.getD_some]
    by_cases hs : cur < s
    · simp only [hs, if_true]
      exact dictGet_dictSet_ne _ _ h
    · simp [hs]

theorem keys_ddMaxUpdate (d : List (String × ℚ)) (k : String) (s : ℚ) :
    (ddMaxUpdate d k s).map Prod.fst =
      if k ∈ d.map Prod.fst then d.map Prod.fst else d.map Prod.fst ++ [k] := by
  unfold ddMaxUpdate
  cases hg : dictGet d k with
  | none =>
    have hmem : k ∉ d.map Prod.fst := (dictGet_eq_none_iff d k).mp hg
    have h0 : dictGet (d ++ [(k, (0 : ℚ))]) k = some 0 := by
      rw [dictGet_append_of_none _ hg, dictGet_cons]
      simp
    have hkeys : (d ++ [(k, (0:ℚ))]).map Prod.fst = d.map Prod.fst ++ [k] := by simp
    simp only [hg, Option.isSome_none, Bool.false_eq_true, if_false, h0, Option.getD_some]
    by_cases hs : (0 : ℚ) < s
    · simp only [hs, if_true]
      rw [keys_dictSet]
      have : k ∈ (d ++ [(k, (0:ℚ))]).map Prod.fst := by simp
      simp [this, hkeys, hmem]
    · simp [hs, hkeys, hmem]
  | some cur =>
    have hmem : k ∈ d.map Prod.fst := by
      have := (dictGet_isSome_iff d k).mp (by simp [hg])
      exact this
    simp only [hg, Option.isSome_some, if_true, Option.getD_some]
    by_cases hs : cur < s
    · simp only [hs, if_true]
      rw [keys_dictSet]
    · simp [hs, hmem]

theorem dkeys_ddMaxUpdate {d : List (String × ℚ)} (k : String) (s : ℚ)
    (hd : DKeys d) : DKeys (ddMaxUpdate d k s) := by
  unfold DKeys at hd ⊢
  rw [keys_ddMaxUpdate]
  by_cases hmem : k ∈ d.map Prod.fst
  · simpa [hmem] using hd
  · simp only [hmem, if_false, List.nodup_append]
    refine ⟨hd, List.nodup_singleton k, ?_⟩
    intro a ha hb
    rw [List.mem_singleton] at hb
    subst hb
    exact hmem ha

theorem ddMaxUpdate_nonneg {d : List (String × ℚ)} (k : String) (s : ℚ)
    (hd : ∀ p ∈ d, 0 ≤ p.2) : ∀ p ∈ ddMaxUpdate d k s, 0 ≤ p.2 := by
  unfold ddMaxUpdate
  cases hg : dictGet d k with
  | none =>
    have h0 : dictGet (d ++ [(k, (0 : ℚ))]) k = some 0 := by
      rw [dictGet_append_of_none _ hg, dictGet_cons]
      simp
    have hd0 : ∀ p ∈ d ++ [(k, (0:ℚ))], 0 ≤ p.2 := by
      intro p hp
      rcases List.mem_append.mp hp with h1 | h2
      · exact hd p h1
      · rw [List.mem_singleton] at h2
        subst h2
        simp
    simp only [hg, Option.isSome_none, Bool.false_eq_true, if_false, h0, Option.getD_some]
    by_cases hs : (0 : ℚ) < s
    · simp only [hs, if_true]
      intro p hp
      rcases mem_dictSet hp with h1 | h2
      · subst h1
        exact hs.le
      · exact hd0 p h2
    · simpa [hs] using hd0
  | some cur =>
    have hcur : 0 ≤ cur := hd (k, cur) (mem_of_dictGet_eq_some hg)
    simp only [hg, Option.isSome_some, if_true, Option.getD_some]
    by_cases hs : cur < s
    · simp only [hs, if_true]
      intro p hp
      rcases mem_dictSet hp with h1 | h2
      · subst h1
        exact hcur.trans hs.le
      · exact hd p h2
    · simpa [hs] using hd

theorem dictGet_ddAppend_self {α : Type} (d : List (String × List α)) (k : String)
    (x : α) : dictGet (ddAppend d k x) k = some ((dictGet d k).getD [] ++ [x]) := by
  unfold ddAppend
  cases h : dictGet d k with
  | none =>
    rw [dictGet_append_of_none _ h, dictGet_cons]
    simp
  | some l => simp [dictGet_dictSet_self]

theorem dictGet_ddAppend_ne {α : Type} (d : List (String × List α)) {k k' : String}
    (x : α) (h : k ≠ k') : dictGet (ddAppend d k x) k' = dictGet d k' := by
  unfold ddAppend
  cases hg : dictGet d k with
  | none =>
    cases hg' : dictGet d k' with
    | none =>
      rw [dictGet_append_of_none _ hg', dictGet_cons]
      simp [h, dictGet_nil]
    | some v => rw [dictGet_append_of_some _ hg']
  | some l => exact dictGet_dictSet_ne _ _ h

theorem keys_ddAppend {α : Type} (d : List (String × List α)) (k : String) (x : α) :
    (ddAppend d k x).map Prod.fst =
      if k ∈ d.map Prod.fst then d.map Prod.fst else d.map Prod.fst ++ [k] := by
  unfold ddAppend
  cases hg : dictGet d k with
  | none =>
    have hmem : k ∉ d.map Prod.fst := (dictGet_eq_none_iff d k).mp hg
    simp [hmem]
  | some l =>
    have hmem : k ∈ d.map Prod.fst := (dictGet_isSome_iff d k).mp (by simp [hg])
    rw [keys_dictSet]

theorem dkeys_ddAppend {α : Type} {d : List (String × List α)} (k : String) (x : α)
    (hd : DKeys d) : DKeys (ddAppend d k x) := by
  unfold DKeys at hd ⊢
  rw [keys_ddAppend]
  by_cases hmem : k ∈ d.map Prod.fst
  · simpa [hmem] using hd
  · simp only [hmem, if_false, List.nodup_append]
    refine ⟨hd, List.nodup_singleton k, ?_⟩
    intro a ha hb
    rw [List.mem_singleton] at hb
    subst hb
    exact hmem ha

theorem ddAppend_ne_nil {α : Type} {d : List (String × List α)} (k : String) (x : α)
    (hd : ∀ p ∈ d, p.2 ≠ []) : ∀ p ∈ ddAppend d k x, p.2 ≠ [] := by
  unfold ddAppend
  cases hg : dictGet d k with
  | none =>
    intro p hp
    rcases List.mem_append.mp hp with h1 | h2
    · exact hd p h1
    · rw [List.mem_singleton] at h2
      subst h2
      simp
  | some l =>
    intro p hp
    rcases mem_dictSet hp with h1 | h2
    · subst h1
      simp
    · exact hd p h2

/-! ### Lemmas about the final averaging step -/

theorem dictGet_computeAvgs {fb : List (String × List ℚ)}
    (hne : ∀ p ∈ fb, p.2 ≠ []) (k : String) :
    dictGet (computeAvgs fb) k =
      (dictGet fb k).map (fun l => l.sum / (l.length : ℚ)) := by
  induction fb with
  | nil => rfl
  | cons p fb ih =>
    obtain ⟨k', l⟩ := p
    have hl : l ≠ [] := hne (k', l) (by simp)
    have hfb : ∀ p ∈ fb, p.2 ≠ [] := fun p hp => hne p (by simp [hp])
    have hcons : computeAvgs ((k', l) :: fb) =
        (k', l.sum / (l.length : ℚ)) :: computeAvgs fb := by
      unfold computeAvgs
      rw [List.filterMap_cons]
      simp [hl]
    rw [hcons, dictGet_cons, dictGet_cons]
    by_cases hk : k' = k <;> simp [hk, ih hfb]

theorem keys_computeAvgs_sublist (fb : List (String × List ℚ)) :
    ((computeAvgs fb).map Prod.fst).Sublist (fb.map Prod.fst) := by
  induction fb with
  | nil => simp [computeAvgs]
  | cons p fb ih =>
    obtain ⟨k', l⟩ := p
    unfold computeAvgs at ih ⊢
    rw [List.filterMap_cons]
    by_cases hl : l.isEmpty
    · simp only [hl, if_true]
      exact ih.cons k'
    · simp only [hl, if_false]
      simpa using ih.cons₂ k'

theorem dkeys_computeAvgs {fb : List (String × List ℚ)} (hd : DKeys fb) :
    DKeys (computeAvgs fb) := by
  unfold DKeys at hd ⊢
  exact (keys_computeAvgs_sublist fb).nodup hd

/-! ### Fold lemmas for the aggregation loop -/

theorem optCat_append {α : Type} (o : Option (List α)) (es es' : List α) :
    optCat (optCat o es) es' = optCat o (es ++ es') := by
  cases o <;> cases es <;> cases es' <;> simp [optCat]

theorem optFoldMax_append (o : Option ℚ) (es es' : List ℚ) :
    optFoldMax (optFoldMax o es) es' = optFoldMax o (es ++ es') := by
  cases o <;> cases es <;> cases es' <;> simp [optFoldMax, List.foldl_append]

theorem entriesOf_cons_self {α : Type} (k : String) (v : α) (m : List (String × α)) :
    entriesOf ((k, v) :: m) k = v :: entriesOf m k := by
  simp [entriesOf]

theorem entriesOf_cons_ne {α : Type} {k' k : String} (v : α) (m : List (String × α))
    (h : k' ≠ k) : entriesOf ((k', v) :: m) k = entriesOf m k := by
  simp [entriesOf, h]

theorem dictGet_foldAppend (m : List (String × ℚ)) (acc : List (String × List ℚ))
    (k : String) :
    dictGet (m.foldl (fun a p => ddAppend a p.1 p.2) acc) k =
      optCat (dictGet acc k) (entriesOf m k) := by
  induction m generalizing acc with
  | nil => cases h : dictGet acc k <;> simp [entriesOf, optCat, h]
  | cons p m ih =>
    obtain ⟨k', v⟩ := p
    rw [List.foldl_cons, ih]
    by_cases hk : k' = k
    · subst hk
      rw [dictGet_ddAppend_self, entriesOf_cons_self]
      cases h : dictGet acc k' <;> simp [optCat, h]
    · rw [dictGet_ddAppend_ne _ _ hk, entriesOf_cons_ne _ _ hk]

theorem dictGet_foldMax (m : List (String × ℚ)) (acc : List (String × ℚ))
    (k : String) :
    dictGet (m.foldl (fun a p => ddMaxUpdate a p.1 p.2) acc) k =
      optFoldMax (dictGet acc k) (entriesOf m k) := by
  induction m generalizing acc with
  | nil => cases h : dictGet acc k <;> simp [entriesOf, optFoldMax, h]
  | cons p m ih =>
    obtain ⟨k', v⟩ := p
    rw [List.foldl_cons, ih]
    by_cases hk : k' = k
    · subst hk
      rw [dictGet_ddMaxUpdate_self, entriesOf_cons_self]
      cases h : dictGet acc k' <;> simp [optFoldMax, h]
    · rw [dictGet_ddMaxUpdate_ne _ _ hk, entriesOf_cons_ne _ _ hk]

theorem foldl_aggStep_allMax
    (games : List (List (String × ℚ) × List (String × ℚ))) (st : AggState) :
    (games.foldl aggStep st).allMax =
      games.foldl (fun acc g => g.1.foldl (fun a p => ddMaxUpdate a p.1 p.2) acc)
        st.allMax := by
  induction games generalizing st with
  | nil => rfl
  | cons g games ih =>
    rw [List.foldl_cons, List.foldl_cons, ih]
    rfl

theorem foldl_aggStep_allAvgLists
    (games : List (List (String × ℚ) × List (String × ℚ))) (st : AggState) :
    (games.foldl aggStep st).allAvgLists =
      games.foldl (fun acc g => g.2.foldl (fun a p => ddAppend a p.1 p.2) acc)
        st.allAvgLists := by
  induction games generalizing st with
  | nil => rfl
  | cons g games ih =>
    rw [List.foldl_cons, List.foldl_cons, ih]
    rfl

theorem dictGet_gamesFoldAvg
    (games : List (List (String × ℚ) × List (String × ℚ)))
    (acc : List (String × List ℚ)) (k : String) :
    dictGet
        (games.foldl (fun acc g => g.2.foldl (fun a p => ddAppend a p.1 p.2) acc) acc)
        k =
      optCat (dictGet acc k) (games.flatMap (fun g => entriesOf g.2 k)) := by
  induction games generalizing acc with
  | nil => cases h : dictGet acc k <;> simp [optCat, h]
  | cons g games ih =>
    rw [List.foldl_cons, ih, dictGet_foldAppend, optCat_append, List.flatMap_cons]

theorem dictGet_gamesFoldMax
    (games : List (List (String × ℚ) × List (String × ℚ)))
    (acc : List (String × ℚ)) (k : String) :
    dictGet
        (games.foldl (fun acc g => g.1.foldl (fun a p => ddMaxUpdate a p.1 p.2) acc) acc)
        k =
      optFoldMax (dictGet acc k) (games.flatMap (fun g => entriesOf g.1 k)) := by
  induction games generalizing acc with
  | nil => cases h : dictGet acc k <;> simp [optFoldMax, h]
  | cons g games ih =>
    rw [List.foldl_cons, ih, dictGet_foldMax, optFoldMax_append, List.flatMap_cons]

theorem entriesOf_of_dkeys {α : Type} {m : List (String × α)} (hd : DKeys m)
    (k : String) : entriesOf m k = (dictGet m k).toList := by
  induction m with
  | nil => simp [entriesOf, dictGet_nil]
  | cons p m ih =>
    obtain ⟨k', v⟩ := p
    have hd' : DKeys m := by
      unfold DKeys at hd ⊢
      exact (List.nodup_cons.mp hd).2
    by_cases hk : k' = k
    · subst hk
      have hnone : dictGet m k' = none := by
        rw [dictGet_eq_none_iff]
        unfold DKeys at hd
        simpa using (List.nodup_cons.mp hd).1
      rw [entriesOf_cons_self, dictGet_cons, ih hd', hnone]
      simp
    · rw [entriesOf_cons_ne _ _ hk, dictGet_cons, ih hd']
      simp [hk]

theorem flatMap_entries_avg
    (games : List (List (String × ℚ) × List (String × ℚ))) (k : String)
    (h : ∀ g ∈ games, DKeys g.2) :
    games.flatMap (fun g => entriesOf g.2 k) =
      games.filterMap (fun g => dictGet g.2 k) := by
  induction games with
  | nil => rfl
  | cons g games ih =>
    have h1 : DKeys g.2 := h g (by simp)
    have h2 : ∀ g' ∈ games, DKeys g'.2 := fun g' hg' => h g' (by simp [hg'])
    rw [List.flatMap_cons, entriesOf_of_dkeys h1, ih h2]
    cases hg : dictGet g.2 k <;> simp [hg, List.filterMap_cons]

theorem flatMap_entries_max
    (games : List (List (String × ℚ) × List (String × ℚ))) (k : String)
    (h : ∀ g ∈ games, DKeys g.1) :
    games.flatMap (fun g => entriesOf g.1 k) =
      games.filterMap (fun g => dictGet g.1 k) := by
  induction games with
  | nil => rfl
  | cons g games ih =>
    have h1 : DKeys g.1 := h g (by simp)
    have h2 : ∀ g' ∈ games, DKeys g'.1 := fun g' hg' => h g' (by simp [hg'])
    rw [List.flatMap_cons, entriesOf_of_dkeys h1, ih h2]
    cases hg : dictGet g.1 k <;> simp [hg, List.filterMap_cons]

theorem gamesFoldAvg_ne_nil
    (games : List (List (String × ℚ) × List (String × ℚ)))
    (acc : List (String × List ℚ)) (h : ∀ p ∈ acc, p.2 ≠ []) :
    ∀ p ∈ games.foldl (fun acc g => g.2.foldl (fun a p => ddAppend a p.1 p.2) acc) acc,
      p.2 ≠ [] := by
  induction games generalizing acc with
  | nil => exact h
  | cons g games ih =>
    rw [List.foldl_cons]
    refine ih _ ?_
    have : ∀ (m : List (String × ℚ)) (acc : List (String × List ℚ)),
        (∀ p ∈ acc, p.2 ≠ []) →
        ∀ p ∈ m.foldl (fun a p => ddAppend a p.1 p.2) acc, p.2 ≠ [] := by
      intro m
      induction m with
      | nil => intro acc hacc; exact hacc
      | cons q m ihm =>
        intro acc hacc
        rw [List.foldl_cons]
        exact ihm _ (ddAppend_ne_nil _ _ hacc)
    exact this g.2 acc h

/-- The final average map of the aggregator, per pitcher: the unweighted mean
of that pitcher's per-game average entries, absent when there is none. -/
theorem aggAvg_spec (games : List (List (String × ℚ) × List (String × ℚ)))
    (k : String) (h : ∀ g ∈ games, DKeys g.2) :
    dictGet (aggregateResults games).2 k =
      if games.filterMap (fun g => dictGet g.2 k) = [] then none
      else some ((games.filterMap (fun g => dictGet g.2 k)).sum /
        ((games.filterMap (fun g => dictGet g.2 k)).length : ℚ)) := by
  have hne : ∀ p ∈ (games.foldl aggStep ⟨[], []⟩).allAvgLists, p.2 ≠ [] := by
    rw [foldl_aggStep_allAvgLists]
    exact gamesFoldAvg_ne_nil games [] (by simp)
  have hget : dictGet (games.foldl aggStep ⟨[], []⟩).allAvgLists k =
      optCat none (games.filterMap (fun g => dictGet g.2 k)) := by
    rw [foldl_aggStep_allAvgLists, dictGet_gamesFoldAvg, flatMap_entries_avg games k h]
    rfl
  show dictGet (computeAvgs (games.foldl aggStep ⟨[], []⟩).allAvgLists) k = _
  rw [dictGet_computeAvgs hne, hget]
  cases hv : games.filterMap (fun g => dictGet g.2 k) <;> simp [optCat, hv]

/-- The final max map of the aggregator, per pitcher: the max fold (from the
`defaultdict(float)` default 0) of that pitcher's per-game max entries, absent
when there is none. -/
theorem aggMax_spec (games : List (List (String × ℚ) × List (String × ℚ)))
    (k : String) (h : ∀ g ∈ games, DKeys g.1) :
    dictGet (aggregateResults games).1 k =
      if games.filterMap (fun g => dictGet g.1 k) = [] then none
      else some ((games.filterMap (fun g => dictGet g.1 k)).foldl max 0) := by
  have hget : dictGet (games.foldl aggStep ⟨[], []⟩).allMax k =
      optFoldMax none (games.filterMap (fun g => dictGet g.1 k)) := by
    rw [foldl_aggStep_allMax, dictGet_gamesFoldMax, flatMap_entries_max games k h]
    rfl
  show dictGet (games.foldl aggStep ⟨[], []⟩).allMax k = _
  rw [hget]
  cases hv : games.filterMap (fun g => dictGet g.1 k) <;> simp [optFoldMax, hv]

/-! ### Facts about the max fold and the unweighted mean -/

theorem le_foldl_max (l : List ℚ) (a : ℚ) : a ≤ l.foldl max a := by
  induction l generalizing a with
  | nil => simp
  | cons x l ih => exact le_trans (le_max_left a x) (ih (max a x))

theorem foldl_max_le_of_mem {l : List ℚ} {v : ℚ} (hv : v ∈ l) (a : ℚ) :
    v ≤ l.foldl max a := by
  induction l generalizing a with
  | nil => simp at hv
  | cons x l ih =>
    rcases List.mem_cons.mp hv with h | h
    · subst h
      exact le_trans (le_max_right a v) (le_foldl_max l (max a v))
    · exact ih h (max a x)

theorem foldl_max_mem (l : List ℚ) (a : ℚ) : l.foldl max a = a ∨ l.foldl max a ∈ l := by
  induction l generalizing a with
  | nil => exact Or.inl rfl
  | cons x l ih =>
    rw [List.foldl_cons]
    rcases ih (max a x) with h | h
    · rcases max_choice a x with hm | hm
      · exact Or.inl (by rw [h, hm])
      · exact Or.inr (by rw [h, hm]; exact List.mem_cons_self x l)
    · exact Or.inr (List.mem_cons.mpr (Or.inr h))

theorem foldl_max_nonneg (l : List ℚ) : (0 : ℚ) ≤ l.foldl max 0 :=
  le_foldl_max l 0

theorem sum_div_length_le {l : List ℚ} (hl : l ≠ []) {m : ℚ} (h : ∀ x ∈ l, x ≤ m) :
    l.sum / (l.length : ℚ) ≤ m := by
  have hlen : (0 : ℚ) < (l.length : ℚ) := by
    exact_mod_cast List.length_pos.mpr hl
  rw [div_le_iff₀ hlen]
  have hs : l.sum ≤ (l.length : ℚ) * m := by
    have := List.sum_le_card_nsmul l m h
    simpa [nsmul_eq_mul] using this
  linarith

/-! ### Claim C1 -/

/-- C1: for every pitcher and every sequence of per-game extraction results,
the aggregated `avg_fastball_speed` is the unweighted arithmetic mean of that
pitcher's per-game averages — one term per game whose average map contains the
pitcher — and in particular never a pitch-count-weighted global mean. -/
theorem C1_avg_of_averages
    (games : List (List (String × ℚ) × List (String × ℚ))) (name : String)
    (h : ∀ g ∈ games, DKeys g.2) :
    dictGet (aggregateResults games).2 name =
      if games.filterMap (fun g => dictGet g.2 name) = [] then none
      else some ((games.filterMap (fun g => dictGet g.2 name)).sum /
        ((games.filterMap (fun g => dictGet g.2 name)).length : ℚ)) :=
  aggAvg_spec games name h

/-- Witness for C1: a game with three fastballs averaging 90 and a game with
one fastball at 92 aggregate to 91, the unweighted mean of the two per-game
averages, regardless of how many pitches underlie each one. -/
theorem C1_avg_of_averages_witness :
    dictGet (aggregateResults [extractGame gameC, extractGame gameD]).2 "P" =
      some 91 := by
  have hC : extractGame gameC = ([("P", 92)], [("P", 90)]) := by
    norm_num [extractGame, allPlaysOf, playersOf, buildPlayerNames, processPlay,
      processEvent, pitcherInfoOf, resolvePitcherName, isFastball, FASTBALL_CODES,
      ddMaxUpdate, ddAppend, dictGet, dictSet, computeAvgs, gameC, mkGame, mkPlay,
      mkEvent, List.find?, List.filterMap_cons, List.filterMap_nil, List.sum_cons,
      List.sum_nil, Prod.mk.injEq, List.cons_ne_nil]
  have hD : extractGame gameD = ([("P", 92)], [("P", 92)]) := by
    norm_num [extractGame, allPlaysOf, playersOf, buildPlayerNames, processPlay,
      processEvent, pitcherInfoOf, resolvePitcherName, isFastball, FASTBALL_CODES,
      ddMaxUpdate, ddAppend, dictGet, dictSet, computeAvgs, gameD, mkGame, mkPlay,
      mkEvent, List.find?, List.filterMap_cons, List.filterMap_nil, List.sum_cons,
      List.sum_nil, Prod.mk.injEq, List.cons_ne_nil]
  have hdk : ∀ g ∈ [extractGame gameC, extractGame gameD], DKeys g.2 := by
    intro g hg
    rcases List.mem_cons.mp hg with h1 | h1
    · rw [h1, hC]
      decide
    · rw [List.mem_singleton.mp h1, hD]
      decide
  have h := C1_avg_of_averages [extractGame gameC, extractGame gameD] "P" hdk
  rw [hC, hD] at h ⊢
  rw [h]
  have hfm : List.filterMap (fun g => dictGet g.2 "P")
      [(([("P", 92)], [("P", 90)]) : List (String × ℚ) × List (String × ℚ)),
       ([("P", 92)], [("P", 92)])] = [90, 92] := by
    norm_num [dictGet, dictGet_cons, List.find?, List.filterMap_cons, List.filterMap_nil]
  rw [hfm]
  norm_num [List.sum_cons, List.sum_nil, List.cons_ne_nil]

/-! ### Claim C5 -/

/-- C5: for every pitcher and every sequence of per-game max-speed maps (with
distinct keys and non-negative speeds, as extraction produces), the aggregated
`max_speed` is the fold of the running-max update over every game and pitcher;
when the pitcher appears at all it is the true maximum of that pitcher's
per-game maxima, and the result is invariant under permuting the games. -/
theorem C5_max_merge_assoc
    (games : List (List (String × ℚ) × List (String × ℚ))) (name : String)
    (h1 : ∀ g ∈ games, DKeys g.1) (h2 : ∀ g ∈ games, ∀ p ∈ g.1, 0 ≤ p.2) :
    (dictGet (aggregateResults games).1 name =
       if games.filterMap (fun g => dictGet g.1 name) = [] then none
       else some ((games.filterMap (fun g => dictGet g.1 name)).foldl max 0)) ∧
    (games.filterMap (fun g => dictGet g.1 name) ≠ [] →
       ∃ v, dictGet (aggregateResults games).1 name = some v ∧
         v ∈ games.filterMap (fun g => dictGet g.1 name) ∧
         ∀ w ∈ games.filterMap (fun g => dictGet g.1 name), w ≤ v) ∧
    (∀ games2, games.Perm games2 →
       dictGet (aggregateResults games2).1 name =
         dictGet (aggregateResults games).1 name) := by
  have hspec := aggMax_spec games name h1
  refine ⟨hspec, ?_, ?_⟩
  · intro hne
    refine ⟨(games.filterMap (fun g => dictGet g.1 name)).foldl max 0,
      by rw [hspec]; simp [hne], ?_, ?_⟩
    · have hnn : ∀ w ∈ games.filterMap (fun g => dictGet g.1 name), 0 ≤ w := by
        intro w hw
        rw [List.mem_filterMap] at hw
        obtain ⟨g, hg, hget⟩ := hw
        exact h2 g hg (name, w) (mem_of_dictGet_eq_some hget)
      rcases foldl_max_mem (games.filterMap (fun g => dictGet g.1 name)) 0 with h | h
      · obtain ⟨x, hx⟩ := List.exists_mem_of_ne_nil _ hne
        have hx1 : x ≤ (games.filterMap (fun g => dictGet g.1 name)).foldl max 0 :=
          foldl_max_le_of_mem hx 0
        have hx0 : x = 0 := le_antisymm (h ▸ hx1) (hnn x hx)
        rw [h, ← hx0]
        exact hx
      · exact h
    · intro w hw
      exact foldl_max_le_of_mem hw 0
  · intro games2 hperm
    have h1' : ∀ g ∈ games2, DKeys g.1 := fun g hg => h1 g (hperm.mem_iff.mpr hg)
    have hspec2 := aggMax_spec games2 name h1'
    have hpv : (games.filterMap (fun g => dictGet g.1 name)).Perm
        (games2.filterMap (fun g => dictGet g.1 name)) := hperm.filterMap _
    rw [hspec, hspec2]
    by_cases hne : games.filterMap (fun g => dictGet g.1 name) = []
    · have hne2 : games2.filterMap (fun g => dictGet g.1 name) = [] := by
        rw [← List.length_eq_zero, ← hpv.length_eq, List.length_eq_zero, hne]
      simp [hne, hne2]
    · have hne2 : games2.filterMap (fun g => dictGet g.1 name) ≠ [] := by
        intro h0
        rw [← List.length_eq_zero, hpv.length_eq, List.length_eq_zero] at hne
        exact hne h0
      simp only [hne, hne2, if_false]
      rw [hpv.foldl_eq 0]

/-- Witness for C5: two concrete per-game max maps for pitcher `"X"` (97 and
99) aggregate to a maximum 99 that belongs to the list of per-game maxima and
dominates it. -/
theorem C5_max_merge_assoc_witness :
    ∃ v, dictGet
        (aggregateResults [([("X", 97)], [("X", 96)]), ([("X", 99)], [("X", 93)])]).1
        "X" = some v ∧
      v ∈ [(([("X", 97)], [("X", 96)]) : List (String × ℚ) × List (String × ℚ)),
            ([("X", 99)], [("X", 93)])].filterMap (fun g => dictGet g.1 "X") ∧
      ∀ w ∈ [(([("X", 97)], [("X", 96)]) : List (String × ℚ) × List (String × ℚ)),
            ([("X", 99)], [("X", 93)])].filterMap (fun g => dictGet g.1 "X"), w ≤ v :=
  (C5_max_merge_assoc [([("X", 97)], [("X", 96)]), ([("X", 99)], [("X", 93)])] "X"
    (by decide)
    (by
      rintro g hg p hp
      simp only [List.mem_cons, List.not_mem_nil, or_false] at hg
      rcases hg with rfl | rfl <;>
        · simp only [List.mem_cons, List.not_mem_nil, or_false] at hp
          rw [hp]
          norm_num)).2.1
    (by
      intro h0
      norm_num [dictGet, dictGet_cons, List.find?, List.filterMap_cons,
        List.filterMap_nil, List.cons_ne_nil] at h0)

/-! ### Claim C3 -/

/-- C3: a record that fails to parse as JSON, and a parsed record lacking the
play list under both `liveData.allPlays` and `liveData.plays.allPlays`, both
yield two empty mappings (the function returns rather than raising). -/
theorem C3_missing_plays_empty :
    extractFromFile none = ([], []) ∧
    ∀ g : GameRecord, allPlaysOf g = none → extractFromFile (some g) = ([], []) := by
  refine ⟨rfl, ?_⟩
  intro g hg
  show extractGame g = ([], [])
  unfold extractGame
  rw [hg]

/-- Witness for C3: a record whose `liveData.plays` object exists but has no
`allPlays` key (and no top-level `allPlays`) extracts to two empty maps. -/
theorem C3_missing_plays_empty_witness :
    allPlaysOf gameNoPlays = none ∧ extractFromFile (some gameNoPlays) = ([], []) :=
  ⟨by decide, C3_missing_plays_empty.2 gameNoPlays (by decide)⟩

/-! ### Claim C4 -/

/-- C4: a qualifying pitch event whose pitch-type code is not in the fastball
set folds its speed into the pitcher's running maximum (`max` of the current
value and the speed) but leaves every fastball-speed list — and hence every
average — unchanged. -/
theorem C4_non_fastball_max_only
    (playerNames : List (Int × String)) (pinfo : PitcherInfo) (st : ExtractState)
    (ev : PlayEvent) (pd : PitchData) (dt : Details) (s : ℚ) (pt : PitchType)
    (h1 : ev.pitchData = some pd) (h2 : ev.details = some dt)
    (h3 : pd.startSpeed = some s) (h4 : dt.type = some pt)
    (h5 : isFastball pt.code = false) :
    (processEvent playerNames pinfo st ev).fastballs = st.fastballs ∧
    computeAvgs (processEvent playerNames pinfo st ev).fastballs =
      computeAvgs st.fastballs ∧
    (processEvent playerNames pinfo st ev).maxSpeeds =
      ddMaxUpdate st.maxSpeeds (resolvePitcherName playerNames pinfo) s ∧
    dictGet (processEvent playerNames pinfo st ev).maxSpeeds
        (resolvePitcherName playerNames pinfo) =
      some (max
        ((dictGet st.maxSpeeds (resolvePitcherName playerNames pinfo)).getD 0) s) := by
  have hpe : processEvent playerNames pinfo st ev =
      { maxSpeeds := ddMaxUpdate st.maxSpeeds (resolvePitcherName playerNames pinfo) s
        fastballs := st.fastballs } := by
    simp [processEvent, h1, h2, h3, h4, h5]
  rw [hpe]
  exact ⟨rfl, rfl, rfl, dictGet_ddMaxUpdate_self _ _ _⟩

/-- Witness for C4: a curveball at 99 from pitcher `"X"` on the empty state
updates the max map but not the fastball lists. -/
theorem C4_non_fastball_max_only_witness :
    (processEvent [] ⟨none, some "X"⟩ ⟨[], []⟩ (mkEvent 99 "CU")).fastballs = [] ∧
    computeAvgs (processEvent [] ⟨none, some "X"⟩ ⟨[], []⟩ (mkEvent 99 "CU")).fastballs =
      computeAvgs [] ∧
    (processEvent [] ⟨none, some "X"⟩ ⟨[], []⟩ (mkEvent 99 "CU")).maxSpeeds =
      ddMaxUpdate [] (resolvePitcherName [] ⟨none, some "X"⟩) 99 ∧
    dictGet (processEvent [] ⟨none, some "X"⟩ ⟨[], []⟩ (mkEvent 99 "CU")).maxSpeeds
        (resolvePitcherName [] ⟨none, some "X"⟩) =
      some (max ((dictGet ([] : List (String × ℚ))
        (resolvePitcherName [] ⟨none, some "X"⟩)).getD 0) 99) :=
  C4_non_fastball_max_only [] ⟨none, some "X"⟩ ⟨[], []⟩ (mkEvent 99 "CU")
    ⟨some 99⟩ ⟨some ⟨some "CU"⟩⟩ 99 ⟨some "CU"⟩ rfl rfl rfl rfl (by decide)

/-! ### Claim C2 -/

theorem buildPlayerNames_zero (playersRaw : List (String × PlayerDataEntry)) :
    dictGet (buildPlayerNames playersRaw) 0 = none := by
  unfold buildPlayerNames
  have hgen : ∀ acc : List (Int × String), dictGet acc (0 : Int) = none →
      dictGet (playersRaw.foldl
        (fun acc p =>
          let person := p.2.person.getD ⟨none, none⟩
          match person.id, person.fullName with
          | some i, some nm => if i ≠ 0 ∧ nm ≠ "" then dictSet acc i nm else acc
          | _, _ => acc)
        acc) 0 = none := by
    induction playersRaw with
    | nil => intro acc hacc; exact hacc
    | cons p raw ih =>
      intro acc hacc
      rw [List.foldl_cons]
      apply ih
      cases hid : (p.2.person.getD ⟨none, none⟩).id with
      | none => simpa [hid] using hacc
      | some i =>
        cases hnm : (p.2.person.getD ⟨none, none⟩).fullName with
        | none => simpa [hid, hnm] using hacc
        | some nm =>
          by_cases hcond : i ≠ 0 ∧ nm ≠ ""
          · simp only [hid, hnm]
            rw [if_pos hcond, dictGet_dictSet_ne acc nm hcond.1]
            exact hacc
          · simpa [hid, hnm, hcond] using hacc
  exact hgen [] rfl

/-- C2: pitcher identity resolution order — roster full name when the
identifier is present and found in the roster built from the players data,
else the matchup display name when present, else the synthesized
`Unknown_Pitcher_Id_...` placeholder.  In particular the roster name wins even
when the matchup carries a different display name. -/
theorem C2_pitcher_resolution (playersRaw : List (String × PlayerDataEntry))
    (pinfo : PitcherInfo) :
    (∀ i nm, pinfo.id = some i →
       dictGet (buildPlayerNames playersRaw) i = some nm →
       resolvePitcherName (buildPlayerNames playersRaw) pinfo = nm) ∧
    ((∀ i, pinfo.id = some i → dictGet (buildPlayerNames playersRaw) i = none) →
       ∀ fn, pinfo.fullName = some fn →
       resolvePitcherName (buildPlayerNames playersRaw) pinfo = fn) ∧
    ((∀ i, pinfo.id = some i → dictGet (buildPlayerNames playersRaw) i = none) →
       pinfo.fullName = none →
       resolvePitcherName (buildPlayerNames playersRaw) pinfo =
         "Unknown_Pitcher_Id_" ++ pitcherIdStr pinfo.id) := by
  refine ⟨?_, ?_, ?_⟩
  · intro i nm hid hget
    have hi0 : i ≠ 0 := by
      intro h0
      rw [h0, buildPlayerNames_zero] at hget
      exact Option.noConfusion hget
    unfold resolvePitcherName
    simp [hid, hi0, hget]
  · intro hnone fn hfn
    unfold resolvePitcherName
    cases hid : pinfo.id with
    | none => simp [hid, hfn]
    | some i =>
      by_cases hi0 : i ≠ 0
      · simp [hid, hi0, hnone i hid, hfn]
      · simp [hid, hi0, hfn]
  · intro hnone hfn
    unfold resolvePitcherName
    cases hid : pinfo.id with
    | none => simp [hid, hfn]
    | some i =>
      by_cases hi0 : i ≠ 0
      · simp [hid, hi0, hnone i hid, hfn]
      · simp [hid, hi0, hfn]

/-- Witness for C2: identifier 12 is in the roster under `"Roster Name"`, and
resolution returns the roster name although the matchup display name reads
`"Display Name"`. -/
theorem C2_pitcher_resolution_witness :
    resolvePitcherName (buildPlayerNames rosterRaw) pinfoDisplay = "Roster Name" :=
  (C2_pitcher_resolution rosterRaw pinfoDisplay).1 12 "Roster Name" (by decide)
    (by decide)

/-! ### Claim C6 -/

/-- C6: end-to-end on the two synthetic games — game A (pitcher `"X"`, speeds
95 and 97, codes FF and FF) and game B (speeds 93 and 99, codes FF and CU) —
extraction yields per-game averages 96 and 93, and aggregation yields max 99
and average-of-averages 94.5. -/
theorem C6_end_to_end :
    extractGame gameA = ([("X", 97)], [("X", 96)]) ∧
    extractGame gameB = ([("X", 99)], [("X", 93)]) ∧
    aggregateResults [extractGame gameA, extractGame gameB] =
      ([("X", 99)], [("X", 94.5)]) ∧
    ((96 : ℚ) + 93) / 2 = 94.5 := by
  refine ⟨?_, ?_, ?_, by norm_num⟩ <;>
    norm_num [aggregateResults, aggStep, extractGame, allPlaysOf, playersOf,
      buildPlayerNames, processPlay, processEvent, pitcherInfoOf,
      resolvePitcherName, isFastball, FASTBALL_CODES, ddMaxUpdate, ddAppend,
      dictGet, dictSet, computeAvgs, gameA, gameB, mkGame, mkPlay, mkEvent,
      List.find?, List.filterMap]

/-! ### Claim C8 -/

/-- C8: the combined saved output is sorted by `max_speed` in descending
order — every earlier entry's `max_speed` is at least every later entry's. -/
theorem C8_sorted_by_max_desc (maxD avgD : List (String × ℚ)) :
    (saveCombined maxD avgD).Pairwise
      (fun a b => b.2.max_speed ≤ a.2.max_speed) := by
  have h := @List.sorted_mergeSort (String × CombinedRecord)
    (fun a b => decide (b.2.max_speed ≤ a.2.max_speed))
    (fun a b c hab hbc => by
      simp only [decide_eq_true_eq] at hab hbc ⊢
      exact le_trans hbc hab)
    (fun a b => by
      simp only [Bool.or_eq_true, decide_eq_true_eq]
      exact le_total b.2.max_speed a.2.max_speed)
    ((maxD.map Prod.fst ++ avgD.map Prod.fst).dedup.map
      (fun p => (p, ⟨(dictGet maxD p).getD 0, (dictGet avgD p).getD 0⟩)))
  unfold saveCombined
  exact h.imp (fun hab => of_decide_eq_true hab)

/-! ### Claim C10 -/

theorem dictGet_of_perm {κ α : Type} [DecidableEq κ] {d e : List (κ × α)}
    (hd : DKeys d) (hp : d.Perm e) (k : κ) : dictGet d k = dictGet e k := by
  have he : DKeys e := by
    unfold DKeys at hd ⊢
    exact ((hp.map Prod.fst).nodup_iff).mp hd
  cases hg : dictGet d k with
  | none =>
    rw [dictGet_eq_none_iff] at hg
    rw [eq_comm, dictGet_eq_none_iff]
    intro hmem
    exact hg (((hp.map Prod.fst).mem_iff).mpr hmem)
  | some v =>
    have hmem : (k, v) ∈ e := hp.mem_iff.mp (mem_of_dictGet_eq_some hg)
    exact (dictGet_eq_some_of_mem he hmem).symm

theorem dictGet_map_self {α : Type} (l : List String) (f : String → α) (k : String) :
    dictGet (l.map (fun p => (p, f p))) k = if k ∈ l then some (f k) else none := by
  induction l with
  | nil => simp [dictGet_nil]
  | cons x l ih =>
    rw [List.map_cons, dictGet_cons]
    by_cases hx : x = k
    · subst hx
      simp
    · have hx' : ¬ k = x := fun h => hx h.symm
      simp [hx, hx', ih]

/-- C10: the combined saved output holds exactly the union of the two key
sets, and a pitcher missing from one map gets the literal default `0` for that
field rather than being omitted. -/
theorem C10_combined_keys_defaults (maxD avgD : List (String × ℚ)) (name : String) :
    dictGet (saveCombined maxD avgD) name =
      if name ∈ maxD.map Prod.fst ∨ name ∈ avgD.map Prod.fst then
        some ⟨(dictGet maxD name).getD 0, (dictGet avgD name).getD 0⟩
      else none := by
  have hdk : DKeys ((maxD.map Prod.fst ++ avgD.map Prod.fst).dedup.map
      (fun p => (p, (⟨(dictGet maxD p).getD 0, (dictGet avgD p).getD 0⟩ :
        CombinedRecord)))) := by
    unfold DKeys
    have : ((maxD.map Prod.fst ++ avgD.map Prod.fst).dedup.map
        (fun p => (p, (⟨(dictGet maxD p).getD 0, (dictGet avgD p).getD 0⟩ :
          CombinedRecord)))).map Prod.fst =
        (maxD.map Prod.fst ++ avgD.map Prod.fst).dedup := by
      generalize (maxD.map Prod.fst ++ avgD.map Prod.fst).dedup = l
      induction l with
      | nil => rfl
      | cons x l ih => simp only [List.map_cons, ih]
    rw [this]
    exact List.nodup_dedup _
  have hperm := List.mergeSort_perm
    ((maxD.map Prod.fst ++ avgD.map Prod.fst).dedup.map
      (fun p => (p, (⟨(dictGet maxD p).getD 0, (dictGet avgD p).getD 0⟩ :
        CombinedRecord))))
    (fun a b => decide (b.2.max_speed ≤ a.2.max_speed))
  have hsorted : dictGet (saveCombined maxD avgD) name =
      dictGet ((maxD.map Prod.fst ++ avgD.map Prod.fst).dedup.map
        (fun p => (p, (⟨(dictGet maxD p).getD 0, (dictGet avgD p).getD 0⟩ :
          CombinedRecord)))) name := by
    unfold saveCombined
    exact (dictGet_of_perm hdk hperm.symm name).symm
  rw [hsorted, dictGet_map_self]
  by_cases hmem : name ∈ maxD.map Prod.fst ∨ name ∈ avgD.map Prod.fst
  · have hmem' : name ∈ (maxD.map Prod.fst ++ avgD.map Prod.fst).dedup := by
      rw [List.mem_dedup, List.mem_append]
      exact hmem
    rw [if_pos hmem', if_pos hmem]
  · have hmem' : name ∉ (maxD.map Prod.fst ++ avgD.map Prod.fst).dedup := by
      rw [List.mem_dedup, List.mem_append]
      exact hmem
    rw [if_neg hmem', if_neg hmem]

/-! ### The extraction-loop invariant -/

theorem extractInv_init : ExtractInv ⟨[], []⟩ := by
  refine ⟨dkeys_nil, dkeys_nil, by simp, by simp, ?_⟩
  intro k l h
  rw [dictGet_nil] at h
  exact Option.noConfusion h

theorem extractInv_processEvent (playerNames : List (Int × String))
    (pinfo : PitcherInfo) {st : ExtractState} (hst : ExtractInv st)
    (ev : PlayEvent) : ExtractInv (processEvent playerNames pinfo st ev) := by
  obtain ⟨hdk1, hdk2, hnn, hnil, hbound⟩ := hst
  obtain ⟨pdOpt, dtOpt⟩ := ev
  unfold processEvent
  cases pdOpt with
  | none => exact ⟨hdk1, hdk2, hnn, hnil, hbound⟩
  | some pd =>
    cases dtOpt with
    | none => exact ⟨hdk1, hdk2, hnn, hnil, hbound⟩
    | some dt =>
      obtain ⟨ss⟩ := pd
      obtain ⟨ty⟩ := dt
      cases ss with
      | none => exact ⟨hdk1, hdk2, hnn, hnil, hbound⟩
      | some s =>
        cases ty with
        | none => exact ⟨hdk1, hdk2, hnn, hnil, hbound⟩
        | some pt =>
          refine ⟨dkeys_ddMaxUpdate _ _ hdk1, ?_, ddMaxUpdate_nonneg _ _ hnn, ?_, ?_⟩
          · by_cases hf : isFastball pt.code <;>
              simp only [hf, if_true, if_false, Bool.false_eq_true]
            · exact dkeys_ddAppend _ _ hdk2
            · exact hdk2
          · by_cases hf : isFastball pt.code <;>
              simp only [hf, if_true, if_false, Bool.false_eq_true]
            · exact ddAppend_ne_nil _ _ hnil
            · exact hnil
          · intro k l hget
            by_cases hf : isFastball pt.code <;>
              simp only [hf, if_true, if_false, Bool.false_eq_true] at hget
            · by_cases hk : resolvePitcherName playerNames pinfo = k
              · subst hk
                rw [dictGet_ddAppend_self] at hget
                have hl : l = (dictGet st.fastballs
                    (resolvePitcherName playerNames pinfo)).getD [] ++ [s] :=
                  (Option.some.injEq _ _).mp hget.symm
                refine ⟨max ((dictGet st.maxSpeeds
                    (resolvePitcherName playerNames pinfo)).getD 0) s,
                  dictGet_ddMaxUpdate_self _ _ _, ?_⟩
                intro x hx
                rw [hl, List.mem_append, List.mem_singleton] at hx
                rcases hx with hx | hx
                · cases hOld : dictGet st.fastballs
                      (resolvePitcherName playerNames pinfo) with
                  | none => rw [hOld] at hx; simp at hx
                  | some oldl =>
                    rw [hOld] at hx
                    obtain ⟨m, hm, hb⟩ := hbound _ oldl hOld
                    have : x ≤ m := hb x hx
                    rw [hm]
                    exact this.trans (le_max_left _ _)
                · subst hx
                  exact le_max_right _ _
              · rw [dictGet_ddAppend_ne _ _ hk] at hget
                obtain ⟨m, hm, hb⟩ := hbound k l hget
                exact ⟨m, by rw [dictGet_ddMaxUpdate_ne _ _ hk]; exact hm, hb⟩
            · obtain ⟨m, hm, hb⟩ := hbound k l hget
              by_cases hk : resolvePitcherName playerNames pinfo = k
              · subst hk
                refine ⟨max ((dictGet st.maxSpeeds
                    (resolvePitcherName playerNames pinfo)).getD 0) s,
                  dictGet_ddMaxUpdate_self _ _ _, ?_⟩
                intro x hx
                rw [hm]
                exact ((hb x hx).trans (le_max_left _ _) :)
              · exact ⟨m, by rw [dictGet_ddMaxUpdate_ne _ _ hk]; exact hm, hb⟩

theorem extractInv_foldEvents (playerNames : List (Int × String))
    (pinfo : PitcherInfo) (evs : List PlayEvent) {st : ExtractState}
    (hst : ExtractInv st) :
    ExtractInv (evs.foldl (processEvent playerNames pinfo) st) := by
  induction evs generalizing st with
  | nil => exact hst
  | cons e evs ih =>
    rw [List.foldl_cons]
    exact ih (extractInv_processEvent playerNames pinfo hst e)

theorem extractInv_processPlay (playerNames : List (Int × String))
    {st : ExtractState} (hst : ExtractInv st) (play : Play) :
    ExtractInv (processPlay playerNames st play) := by
  unfold processPlay
  cases play.playEvents with
  | none => exact hst
  | some evs => exact extractInv_foldEvents playerNames (pitcherInfoOf play) evs hst

theorem extractInv_foldPlays (playerNames : List (Int × String)) (plays : List Play)
    {st : ExtractState} (hst : ExtractInv st) :
    ExtractInv (plays.foldl (processPlay playerNames) st) := by
  induction plays generalizing st with
  | nil => exact hst
  | cons play plays ih =>
    rw [List.foldl_cons]
    exact ih (extractInv_processPlay playerNames hst play)

/-- Structural facts about a single extraction result: both maps have distinct
keys, max speeds are non-negative, and every recorded per-game average is
bounded by the same pitcher's per-game maximum. -/
theorem extractGame_facts (g : GameRecord) :
    DKeys (extractGame g).1 ∧ DKeys (extractGame g).2 ∧
    (∀ p ∈ (extractGame g).1, 0 ≤ p.2) ∧
    (∀ name v, dictGet (extractGame g).2 name = some v →
      ∃ m, dictGet (extractGame g).1 name = some m ∧ v ≤ m) := by
  unfold extractGame
  cases hap : allPlaysOf g with
  | none =>
    refine ⟨dkeys_nil, dkeys_nil, by simp, ?_⟩
    intro name v h
    rw [dictGet_nil] at h
    exact Option.noConfusion h
  | some plays =>
    obtain ⟨h1, h2, h3, h4, h5⟩ :=
      extractInv_foldPlays (buildPlayerNames (playersOf g)) plays extractInv_init
    refine ⟨h1, dkeys_computeAvgs h2, h3, ?_⟩
    intro name v hv
    rw [dictGet_computeAvgs h4] at hv
    cases hfb : dictGet (plays.foldl (processPlay (buildPlayerNames (playersOf g)))
        ⟨[], []⟩).fastballs name with
    | none =>
      rw [hfb] at hv
      exact Option.noConfusion hv
    | some l =>
      rw [hfb] at hv
      have hvl : l.sum / (l.length : ℚ) = v := (Option.some.injEq _ _).mp hv
      obtain ⟨m, hm, hb⟩ := h5 name l hfb
      have hl : l ≠ [] := h4 (name, l) (mem_of_dictGet_eq_some hfb)
      exact ⟨m, hm, by rw [← hvl]; exact sum_div_length_le hl hb⟩

/-! ### Claim C9 -/

/-- C9: over any collection of game records, every pitcher in the aggregated
average map also appears in the aggregated max map with an average bounded by
the maximum, and every aggregated maximum is non-negative. -/
theorem C9_avg_le_max_nonneg (games : List GameRecord) :
    (∀ name v,
       dictGet (aggregateResults (games.map extractGame)).2 name = some v →
       ∃ m, dictGet (aggregateResults (games.map extractGame)).1 name = some m ∧
         v ≤ m) ∧
    (∀ name m,
       dictGet (aggregateResults (games.map extractGame)).1 name = some m →
       0 ≤ m) := by
  have hdk2 : ∀ g' ∈ games.map extractGame, DKeys g'.2 := by
    intro g' hg'
    rw [List.mem_map] at hg'
    obtain ⟨g, hg, rfl⟩ := hg'
    exact (extractGame_facts g).2.1
  have hdk1 : ∀ g' ∈ games.map extractGame, DKeys g'.1 := by
    intro g' hg'
    rw [List.mem_map] at hg'
    obtain ⟨g, hg, rfl⟩ := hg'
    exact (extractGame_facts g).1
  constructor
  · intro name v hv
    rw [aggAvg_spec _ _ hdk2] at hv
    by_cases hvals :
        (games.map extractGame).filterMap (fun g => dictGet g.2 name) = []
    · rw [if_pos hvals] at hv
      exact Option.noConfusion hv
    · rw [if_neg hvals] at hv
      have hv' : ((games.map extractGame).filterMap
            (fun g => dictGet g.2 name)).sum /
          (((games.map extractGame).filterMap
            (fun g => dictGet g.2 name)).length : ℚ) = v :=
        (Option.some.injEq _ _).mp hv
      obtain ⟨x, hx⟩ := List.exists_mem_of_ne_nil _ hvals
      rw [List.mem_filterMap] at hx
      obtain ⟨gp, hgp, hgget⟩ := hx
      rw [List.mem_map] at hgp
      obtain ⟨g0, hg0, rfl⟩ := hgp
      obtain ⟨m0, hm0, hle0⟩ := (extractGame_facts g0).2.2.2 name x hgget
      have hm0mem : m0 ∈
          (games.map extractGame).filterMap (fun g => dictGet g.1 name) :=
        List.mem_filterMap.mpr ⟨extractGame g0, List.mem_map.mpr ⟨g0, hg0, rfl⟩, hm0⟩
      have hvalsM :
          (games.map extractGame).filterMap (fun g => dictGet g.1 name) ≠ [] :=
        List.ne_nil_of_mem hm0mem
      refine ⟨((games.map extractGame).filterMap
          (fun g => dictGet g.1 name)).foldl max 0,
        by rw [aggMax_spec _ _ hdk1, if_neg hvalsM], ?_⟩
      rw [← hv']
      apply sum_div_length_le
      · exact hvals
      · intro w hw
        rw [List.mem_filterMap] at hw
        obtain ⟨gp, hgp, hwget⟩ := hw
        rw [List.mem_map] at hgp
        obtain ⟨g1, hg1, rfl⟩ := hgp
        obtain ⟨m1, hm1, hle1⟩ := (extractGame_facts g1).2.2.2 name w hwget
        have hm1mem : m1 ∈
            (games.map extractGame).filterMap (fun g => dictGet g.1 name) :=
          List.mem_filterMap.mpr
            ⟨extractGame g1, List.mem_map.mpr ⟨g1, hg1, rfl⟩, hm1⟩
        exact hle1.trans (foldl_max_le_of_mem hm1mem 0)
  · intro name m hm
    rw [aggMax_spec _ _ hdk1] at hm
    by_cases hvals :
        (games.map extractGame).filterMap (fun g => dictGet g.1 name) = []
    · rw [if_pos hvals] at hm
      exact Option.noConfusion hm
    · rw [if_neg hvals] at hm
      have : ((games.map extractGame).filterMap
          (fun g => dictGet g.1 name)).foldl max 0 = m :=
        (Option.some.injEq _ _).mp hm
      rw [← this]
      exact foldl_max_nonneg _

/-- Witness for C9: on the two synthetic games, pitcher `"X"`'s aggregated
average 94.5 is bounded by an aggregated maximum. -/
theorem C9_avg_le_max_nonneg_witness :
    ∃ m, dictGet (aggregateResults ([gameA, gameB].map extractGame)).1 "X" =
        some m ∧ (94.5 : ℚ) ≤ m :=
  (C9_avg_le_max_nonneg [gameA, gameB]).1 "X" 94.5
    (by
      norm_num [aggregateResults, aggStep, extractGame, allPlaysOf, playersOf,
        buildPlayerNames, processPlay, processEvent, pitcherInfoOf,
        resolvePitcherName, isFastball, FASTBALL_CODES, ddMaxUpdate, ddAppend,
        dictGet, dictSet, computeAvgs, gameA, gameB, mkGame, mkPlay, mkEvent,
        List.find?, List.filterMap])

/-! ### Claim C7 -/

theorem dictGet_foldEvents_fastballs (playerNames : List (Int × String))
    (pinfo : PitcherInfo) (evs : List PlayEvent) (st : ExtractState) (k : String) :
    dictGet ((evs.foldl (processEvent playerNames pinfo) st).fastballs) k =
      optCat (dictGet st.fastballs k)
        (evs.filterMap (evFbSpeed playerNames pinfo k)) := by
  induction evs generalizing st with
  | nil => cases h : dictGet st.fastballs k <;> simp [optCat, h]
  | cons e evs ih =>
    rw [List.foldl_cons, List.filterMap_cons, ih]
    obtain ⟨pdOpt, dtOpt⟩ := e
    cases pdOpt with
    | none => rfl
    | some pd =>
      cases dtOpt with
      | none => rfl
      | some dt =>
        obtain ⟨ss⟩ := pd
        obtain ⟨ty⟩ := dt
        cases ss with
        | none => rfl
        | some s =>
          cases ty with
          | none => rfl
          | some pt =>
            by_cases hf : isFastball pt.code
            · by_cases hk : resolvePitcherName playerNames pinfo = k
              · simp only [processEvent, evFbSpeed, hf, hk, if_true, and_true,
                  if_pos, and_self]
                rw [dictGet_ddAppend_self]
                cases h : dictGet st.fastballs k <;> simp [optCat, h]
              · simp only [processEvent, evFbSpeed, hf, hk, if_true, and_true,
                  if_pos, and_self, false_and, if_false, eq_self_iff_true]
                rw [dictGet_ddAppend_ne _ _ hk]
            · simp only [processEvent, evFbSpeed, hf, Bool.false_eq_true,
                and_false, if_false, eq_self_iff_true, if_true]

theorem dictGet_foldPlays_fastballs (playerNames : List (Int × String))
    (plays : List Play) (st : ExtractState) (k : String) :
    dictGet ((plays.foldl (processPlay playerNames) st).fastballs) k =
      optCat (dictGet st.fastballs k)
        (plays.flatMap (playFbSpeeds playerNames k)) := by
  induction plays generalizing st with
  | nil => cases h : dictGet st.fastballs k <;> simp [optCat, h]
  | cons play plays ih =>
    rw [List.foldl_cons, ih, List.flatMap_cons, ← optCat_append]
    congr 1
    unfold processPlay playFbSpeeds
    cases play.playEvents with
    | none => cases h : dictGet st.fastballs k <;> simp [optCat, h]
    | some evs =>
      exact dictGet_foldEvents_fastballs playerNames (pitcherInfoOf play) evs st k

theorem length_filterMap_eq_length_filter {β γ : Type} (f : β → Option γ)
    (l : List β) :
    (l.filterMap f).length = (l.filter (fun b => (f b).isSome)).length := by
  induction l with
  | nil => rfl
  | cons b l ih =>
    cases h : f b <;> simp [List.filterMap_cons, List.filter_cons, h, ih]

/-- C7: a pitcher none of whose qualifying events carries a fastball-set code
is absent from the extractor's average map (omitted, not zero-filled), and in
the aggregator a game whose average map lacks the pitcher contributes no term:
the denominator counts exactly the games in which the pitcher is present. -/
theorem C7_no_fastball_no_term :
    (∀ (g : GameRecord) (name : String),
       (∀ e ∈ gameEvents g, e.1 = name → isFastball e.2.2 = false) →
       dictGet (extractGame g).2 name = none) ∧
    (∀ (games : List (List (String × ℚ) × List (String × ℚ))) (name : String),
       (∀ gm ∈ games, DKeys gm.2) →
       dictGet (aggregateResults games).2 name = none ∨
       ∃ v, dictGet (aggregateResults games).2 name = some v ∧
         v = (games.filterMap (fun gm => dictGet gm.2 name)).sum /
           ((games.filter (fun gm => (dictGet gm.2 name).isSome)).length : ℚ)) := by
  constructor
  · intro g name h
    unfold extractGame
    cases hap : allPlaysOf g with
    | none => exact dictGet_nil name
    | some plays =>
      obtain ⟨h1, h2, h3, h4, h5⟩ :=
        extractInv_foldPlays (buildPlayerNames (playersOf g)) plays extractInv_init
      show dictGet (computeAvgs _) name = none
      rw [dictGet_computeAvgs h4, dictGet_foldPlays_fastballs]
      have hflat : plays.flatMap
          (playFbSpeeds (buildPlayerNames (playersOf g)) name) = [] := by
        rw [List.flatMap_eq_nil_iff]
        intro play hplay
        unfold playFbSpeeds
        cases hpe : play.playEvents with
        | none => rfl
        | some evs =>
          rw [List.filterMap_eq_nil_iff]
          intro ev hev
          obtain ⟨pdOpt, dtOpt⟩ := ev
          cases pdOpt with
          | none => rfl
          | some pd =>
            cases dtOpt with
            | none => rfl
            | some dt =>
              obtain ⟨ss⟩ := pd
              obtain ⟨ty⟩ := dt
              cases ss with
              | none => rfl
              | some s =>
                cases ty with
                | none => rfl
                | some pt =>
                  have hncond : ¬ (resolvePitcherName
                      (buildPlayerNames (playersOf g)) (pitcherInfoOf play) = name ∧
                      isFastball pt.code = true) := by
                    rintro ⟨hk, hfb⟩
                    have hmem : (resolvePitcherName (buildPlayerNames (playersOf g))
                        (pitcherInfoOf play), s, pt.code) ∈ gameEvents g := by
                      unfold gameEvents
                      rw [hap, List.mem_flatMap]
                      refine ⟨play, hplay, ?_⟩
                      rw [hpe, List.mem_filterMap]
                      exact ⟨⟨some ⟨some s⟩, some ⟨some pt⟩⟩, hev, rfl⟩
                    have hfalse := h _ hmem hk
                    rw [hfb] at hfalse
                    exact Bool.noConfusion hfalse
                  simp [evFbSpeed, hncond]
      rw [hflat]
      rfl
  · intro games name hdk
    rw [aggAvg_spec games name hdk]
    by_cases hvals : games.filterMap (fun gm => dictGet gm.2 name) = []
    · exact Or.inl (by rw [if_pos hvals])
    · refine Or.inr ⟨(games.filterMap (fun gm => dictGet gm.2 name)).sum /
        ((games.filterMap (fun gm => dictGet gm.2 name)).length : ℚ),
        by rw [if_neg hvals], ?_⟩
      rw [length_filterMap_eq_length_filter]

/-- Witness for C7: pitcher `"Q"` throws only a curveball in `gameE` and is
absent from the average map; aggregating a game containing `"P"` with one that
does not, the denominator counts only the one game in which `"P"` appears. -/
theorem C7_no_fastball_no_term_witness :
    dictGet (extractGame gameE).2 "Q" = none ∧
    (dictGet (aggregateResults [([("P", 92)], [("P", 90)]), ([("Q", 85)], [])]).2
        "P" = none ∨
     ∃ v, dictGet (aggregateResults
          [([("P", 92)], [("P", 90)]), ([("Q", 85)], [])]).2 "P" = some v ∧
       v = ([(([("P", 92)], [("P", 90)]) :
              List (String × ℚ) × List (String × ℚ)), ([("Q", 85)], [])].filterMap
             (fun gm => dictGet gm.2 "P")).sum /
           (([(([("P", 92)], [("P", 90)]) :
              List (String × ℚ) × List (String × ℚ)), ([("Q", 85)], [])].filter
             (fun gm => (dictGet gm.2 "P").isSome)).length : ℚ)) :=
  ⟨C7_no_fastball_no_term.1 gameE "Q" (by decide),
   C7_no_fastball_no_term.2 [([("P", 92)], [("P", 90)]), ([("Q", 85)], [])] "P"
     (by decide)⟩

end MLB
